import Mathlib

/-!
# solve-timer: the inspection / timing state machine of `main.go`

A shallow embedding of `model.Update` and `model.viewAllSolvesView` of `main.go`.

* `time.Time` values are monotonic clock readings in nanoseconds (`Int`); every call of
  `Update` reads the clock at most once, so the reading is passed in as `now`.
* `time.Duration` is a count of nanoseconds (`Int`); `time.Time.Sub` saturates at the
  ends of the 64-bit range, as the `time` package documents.
* `float64` is kept abstract: the program only converts a duration to seconds and adds
  the constant `2`, so both are operations of the class `Float64`.  Exact decimal
  arithmetic on `ℚ` is one instance and is used for the numeric examples.
* Go's `int` (window size, scroll offset, slice indices) is `Int`; the arithmetic of
  `viewAllSolvesView` on the window height wraps around at 64 bits (`wrapInt`).  A slice
  is a `List`, and indexing outside the slice fails (`none`) where Go panics.
* `saveSolves` only writes the history file and has no effect on the model value.
-/

namespace SolveTimer

/-- The two `float64` operations of the program: `time.Duration.Seconds` and addition
(with the constant `2`). -/
class Float64 (F : Type) where
  /-- Go: `d.Seconds()` for a duration of `d` nanoseconds. -/
  seconds : Int → F
  /-- Go: `x + y` on `float64`. -/
  add : F → F → F
  /-- Go: the constant `2` as a `float64`. -/
  two : F

/-- Exact arithmetic: seconds as a rational number of seconds. -/
instance ratFloat64 : Float64 ℚ where
  seconds d := (d : ℚ) / 1000000000
  add x y := x + y
  two := 2

/-- Go: `math.MaxInt64`, the largest `int`. -/
def MaxInt : Int := 9223372036854775807

/-- Go: `math.MinInt64`, the smallest `int`. -/
def MinInt : Int := -9223372036854775808

/-- The result of an `int` addition or subtraction whose exact value is `x`: Go wraps
around at 64 bits (two's complement). -/
def wrapInt (x : Int) : Int :=
  (x + 9223372036854775808) % 18446744073709551616 - 9223372036854775808

/-- Go: `time.Second`, in nanoseconds. -/
def Second : Int := 1000000000

/-- Go: the largest `time.Duration`. -/
def maxDuration : Int := 9223372036854775807

/-- Go: the smallest `time.Duration`. -/
def minDuration : Int := -9223372036854775808

/-- Go: `t.Sub(u)`, the duration `t - u`, saturated to the range of `time.Duration`. -/
def Sub (t u : Int) : Int :=
  if t - u > maxDuration then maxDuration
  else if t - u < minDuration then minDuration
  else t - u

/-- Go: `time.Since(t)` when the clock reads `now`. -/
def Since (now t : Int) : Int := Sub now t

/-- Go: `type solveResult struct`. -/
structure solveResult (F : Type) where
  Time : F
  Penalty : String
deriving DecidableEq, Repr

/-- Go: `type model struct`. -/
structure model (F : Type) where
  running : Bool
  start : Int
  elapsed : Int
  quitting : Bool
  width : Int
  height : Int
  solves : List (solveResult F)
  inspection : Bool
  inspectionStart : Int
  inspectionElapsed : Int
  penalty : String
  viewingAllSolves : Bool
  scrollOffset : Int

/-- The messages `Update` distinguishes: a key press (with `msg.String()`), a tick, a
window resize, and any other message. -/
inductive Msg where
  | KeyMsg (key : String)
  | tickMsg
  | WindowSizeMsg (Width Height : Int)
  | other
deriving DecidableEq, Repr

/-- The command returned next to the model: `nil`, `tick()` or `tea.Quit`. -/
inductive Cmd where
  | nil
  | tick
  | Quit
deriving DecidableEq, Repr

/-- Go: `initialModel()`, with `loaded` the value of `loadSolves()`. -/
def initialModel {F : Type} (loaded : List (solveResult F)) : model F :=
  { running := false, start := 0, elapsed := 0, quitting := false,
    width := 80, height := 24, solves := loaded,
    inspection := false, inspectionStart := 0, inspectionElapsed := 0,
    penalty := "", viewingAllSolves := false, scrollOffset := 0 }

/-- The record the "Stop solve" branch of `Update` puts in front of the history
(the three `solveResult` literals of that branch). -/
def stopRecord {F : Type} [Float64 F] (elapsed : Int) (penalty : String) : solveResult F :=
  if penalty = "DNF" then
    { Time := Float64.seconds elapsed, Penalty := "DNF" }
  else if penalty = "+2" then
    { Time := Float64.add (Float64.seconds elapsed) Float64.two, Penalty := "+2" }
  else
    { Time := Float64.seconds elapsed, Penalty := "" }

/-- The end of `Update`, reached by every branch that does not return early:
`if m.inspection || m.running { return m, tick() }; return m, nil`. -/
def fallThrough {F : Type} (m : model F) : model F × Cmd :=
  if m.inspection || m.running then (m, Cmd.tick) else (m, Cmd.nil)

/-- Go: the key switch of `Update` while `m.viewingAllSolves` holds. -/
def updateViewingKey {F : Type} (m : model F) (key : String) : model F × Cmd :=
  if key = "q" ∨ key = "esc" then
    ({ m with viewingAllSolves := false, scrollOffset := 0 }, Cmd.nil)
  else if key = "up" ∨ key = "k" then
    if m.scrollOffset > 0 then
      ({ m with scrollOffset := m.scrollOffset - 1 }, Cmd.nil)
    else (m, Cmd.nil)
  else if key = "down" ∨ key = "j" then
    if m.scrollOffset < (m.solves.length : Int) - 1 then
      ({ m with scrollOffset := m.scrollOffset + 1 }, Cmd.nil)
    else (m, Cmd.nil)
  else (m, Cmd.nil)

/-- Go: the `case " "` branch of `Update`. -/
def updateSpace {F : Type} [Float64 F] (m : model F) (now : Int) : model F × Cmd :=
  if m.inspection then
    let m1 : model F :=
      { m with inspection := false, running := true, start := now, elapsed := 0, penalty := "" }
    if m1.inspectionElapsed > 15 * Second ∧ m1.inspectionElapsed ≤ 17 * Second then
      ({ m1 with penalty := "+2" }, Cmd.tick)
    else if m1.inspectionElapsed > 17 * Second then
      ({ m1 with penalty := "DNF" }, Cmd.tick)
    else (m1, Cmd.tick)
  else if !m.running then
    ({ m with inspection := true, inspectionStart := now, inspectionElapsed := 0,
              penalty := "" }, Cmd.tick)
  else
    let m1 : model F := { m with running := false, elapsed := Since now m.start }
    fallThrough { m1 with solves := stopRecord m1.elapsed m1.penalty :: m1.solves }

/-- Go: the `case tickMsg` branch of `Update`. -/
def updateTick {F : Type} (m : model F) (now : Int) : model F × Cmd :=
  if m.inspection then
    let m1 : model F := { m with inspectionElapsed := Since now m.inspectionStart }
    if m1.inspectionElapsed > 17 * Second then
      ({ m1 with penalty := "DNF" }, Cmd.tick)
    else if m1.inspectionElapsed > 15 * Second then
      ({ m1 with penalty := "+2" }, Cmd.tick)
    else (m1, Cmd.tick)
  else if m.running then
    ({ m with elapsed := Since now m.start }, Cmd.tick)
  else fallThrough m

/-- Go: `func (m model) Update(msg tea.Msg) (tea.Model, tea.Cmd)`, handled when the
clock reads `now`. -/
def model.Update {F : Type} [Float64 F] (m : model F) (now : Int) (msg : Msg) :
    model F × Cmd :=
  match msg with
  | Msg.KeyMsg key =>
    if m.viewingAllSolves then updateViewingKey m key
    else if key = "q" ∨ key = "ctrl+c" then
      ({ m with quitting := true }, Cmd.Quit)
    else if key = "v" then
      if m.solves.length > 0 then fallThrough { m with viewingAllSolves := true }
      else fallThrough m
    else if key = " " then updateSpace m now
    else if key = "r" then
      fallThrough { m with running := false, inspection := false, elapsed := 0,
                           penalty := "", inspectionElapsed := 0 }
    else fallThrough m
  | Msg.tickMsg => updateTick m now
  | Msg.WindowSizeMsg w h => fallThrough { m with width := w, height := h }
  | Msg.other => fallThrough m

/-- The model after `Update` handled `msg` at clock reading `now`. -/
def step {F : Type} [Float64 F] (m : model F) (ev : Int × Msg) : model F :=
  (m.Update ev.1 ev.2).1

/-- The model after handling a sequence of events, each with its clock reading. -/
def run {F : Type} [Float64 F] (m : model F) (evs : List (Int × Msg)) : model F :=
  evs.foldl step m

/-- The advance command: the space key. -/
def advance : Msg := Msg.KeyMsg " "

/-- The reset command: the key `r`. -/
def reset : Msg := Msg.KeyMsg "r"

/-- A line of the full-history view; the numbers and times are the arguments of the
`fmt.Sprintf` call that renders the line. -/
inductive Line (F : Type) where
  /-- The line `"All Past Solves:"`. -/
  | title
  /-- The line `"No solves yet."`. -/
  | noSolves
  /-- Go: `fmt.Sprintf("%3d. DNF", n)`. -/
  | dnf (n : Int)
  /-- Go: `fmt.Sprintf("%3d. %.5f (+2)", n, t)`. -/
  | plusTwo (n : Int) (t : F)
  /-- Go: `fmt.Sprintf("%3d. %.5f", n, t)`. -/
  | plain (n : Int) (t : F)
deriving DecidableEq, Repr

/-- Go: `xs[i]`; `none` where Go panics with an index out of range. -/
def index {α : Type} (xs : List α) (i : Int) : Option α :=
  if 0 ≤ i ∧ i < (xs.length : Int) then xs[i.toNat]? else none

/-- The line the loop of `viewAllSolvesView` builds for record `s` at index `i`. -/
def solveLine {F : Type} (i : Int) (s : solveResult F) : Line F :=
  if s.Penalty = "DNF" then Line.dnf (i + 1)
  else if s.Penalty = "+2" then Line.plusTwo (i + 1) s.Time
  else Line.plain (i + 1) s.Time

/-- Go: `for i := start; i < end; i++ { s := m.solves[i]; ...; lines = append(lines, line) }`,
from index `i` on, with `fuel` bounding the number of iterations. -/
def viewLoop {F : Type} (solves : List (solveResult F)) (stop : Int) :
    Nat → Int → List (Line F) → Option (List (Line F))
  | 0, _, lines => some lines
  | fuel + 1, i, lines =>
    if i < stop then
      match index solves i with
      | none => none
      | some s => viewLoop solves stop fuel (i + 1) (lines ++ [solveLine i s])
    else some lines

/-- Go: `func (m model) viewAllSolvesView() string`, up to the list `lines` that is
joined and placed on the screen; `none` when an index is out of range.  The subtraction
`m.height - 4` and the sum `start + maxRows` wrap around at 64 bits.  The loop runs
`end - start` times when `start < end` and not at all otherwise, which is the fuel; its
index stays below `end`, which is at most `len(m.solves)`, so `i++` does not wrap. -/
def model.viewAllSolvesView {F : Type} (m : model F) : Option (List (Line F)) :=
  let lines : List (Line F) := [Line.title]
  let maxRows := wrapInt (m.height - 4)
  let start := m.scrollOffset
  let stop := wrapInt (start + maxRows)
  let stop := if stop > (m.solves.length : Int) then (m.solves.length : Int) else stop
  match viewLoop m.solves stop (stop - start).toNat start lines with
  | none => none
  | some lines => some (if lines.length = 1 then lines ++ [Line.noSolves] else lines)

/-- The phases of the timer. -/
inductive Phase where
  | Idle
  | Inspecting
  | Running
deriving DecidableEq, Repr

/-- The phase read off the two flags of the model; no phase when both are set. -/
def phase {F : Type} (m : model F) : Option Phase :=
  match m.inspection, m.running with
  | false, false => some Phase.Idle
  | true, false => some Phase.Inspecting
  | false, true => some Phase.Running
  | true, true => none

/-- The transition table as the specification words it: advance cycles
Idle, Inspecting, Running; reset leads to Idle; everything else keeps the phase. -/
def phaseTable (p : Phase) (msg : Msg) : Phase :=
  if msg = advance then
    match p with
    | Phase.Idle => Phase.Inspecting
    | Phase.Inspecting => Phase.Running
    | Phase.Running => Phase.Idle
  else if msg = reset then Phase.Idle
  else p

/-- The penalty rule as the specification words it, for an inspection of `d`
nanoseconds: none up to 15s, `+2` up to 17s, `DNF` beyond. -/
def penaltyRule (d : Int) : String :=
  if d ≤ 15 * Second then "" else if d ≤ 17 * Second then "+2" else "DNF"

/-- The severity of a penalty: none, then `+2`, then `DNF`. -/
def penaltyRank (p : String) : Nat :=
  if p = "DNF" then 2 else if p = "+2" then 1 else 0

/-- The states reachable from the initial model, with any loaded history, by any
sequence of messages handled at any clock readings. -/
inductive Reachable {F : Type} [Float64 F] : model F → Prop where
  | init (loaded : List (solveResult F)) : Reachable (initialModel loaded)
  | step {m : model F} (now : Int) (msg : Msg) :
      Reachable m → Reachable (m.Update now msg).1

/-- The clock reading of the last tick handled during the current inspection, after
`msg` is handled at `now` in state `m` where that reading was `last`: a tick while
inspecting records `now`, a state that is not inspecting has none. -/
def lastTickAfter {F : Type} (m : model F) (now : Int) (msg : Msg) (last : Option Int) :
    Option Int :=
  if m.inspection then (if msg = Msg.tickMsg then some now else last) else none

/-- The clock reading at which the inspection under way after a message began, when that
message is handled at `now` in state `m`: an inspection that was already under way keeps
its beginning `began`, one that starts with this message begins at `now`. -/
def beganAfter {F : Type} (m : model F) (now : Int) (began : Int) : Int :=
  if m.inspection then began else now

/-- The states reachable under a clock that never goes backwards:
`MonoReachable clk began last m` says `m` is reached with the last message handled at clock
reading `clk`; when `m` is inspecting, `began` is the clock reading at which the message
that started the inspection was handled and `last` is the clock reading of the last tick
handled during the inspection, if any.  Neither is read off the model. -/
inductive MonoReachable {F : Type} [Float64 F] : Int → Int → Option Int → model F → Prop where
  | init (loaded : List (solveResult F)) (clk : Int) :
      MonoReachable clk clk none (initialModel loaded)
  | step {clk began : Int} {last : Option Int} {m : model F} (now : Int) (msg : Msg) :
      MonoReachable clk began last m → clk ≤ now →
      MonoReachable now (beganAfter m now began) (lastTickAfter m now msg last)
        (m.Update now msg).1

/-- The records at indices `[offset, min(offset + height - 4, len))` of a history, in
history order, as the specification words the window of the full-history view. -/
def window {α : Type} (history : List α) (offset height : Int) : List α :=
  (history.drop offset.toNat).take
    (min (offset + height - 4) (history.length : Int) - offset).toNat

/-- The view lines of consecutive records, the first of them at index `offset`. -/
def listing {F : Type} (offset : Int) (records : List (solveResult F)) : List (Line F) :=
  (records.enumFrom offset.toNat).map (fun p => solveLine (p.1 : Int) p.2)

/-- A model showing the history view on three records, scrolled to the second, in a
window six rows high. -/
def exViewing : model ℚ :=
  { initialModel [({ Time := 7, Penalty := "+2" } : solveResult ℚ),
                  { Time := 8, Penalty := "DNF" }, { Time := 9, Penalty := "" }] with
      viewingAllSolves := true, scrollOffset := 1, height := 6 }

/-- A model showing the history view on three records in a window whose height is the
smallest `int`. -/
def exTall : model ℚ :=
  { initialModel [({ Time := 7, Penalty := "+2" } : solveResult ℚ),
                  { Time := 8, Penalty := "DNF" }, { Time := 9, Penalty := "" }] with
      viewingAllSolves := true, height := -9223372036854775808 }

/-- The model after two advances and the key `v` on a history of one record: Running,
with the history view open. -/
def exRunningViewing : model ℚ :=
  run (initialModel [({ Time := 9, Penalty := "" } : solveResult ℚ)])
    [(0, advance), (1000000000, advance), (2000000000, Msg.KeyMsg "v")]

/-- The inspection time d the specification describes: the clock reading at the last
tick of the inspection minus the clock reading at which the inspection began, or 0 before
the first tick. -/
def inspectionTime (last : Option Int) (began : Int) : Int :=
  match last with
  | none => 0
  | some t => t - began

/-- What holds of an inspecting model reached with the clock at `clk`, the inspection
begun at `began` and its last tick at `last`: the recorded start is `began`, the clock has
not gone back, the cached time is the inspection time (capped at the largest duration),
and the penalty is the rule applied to it. -/
def InspectInv {F : Type} (clk began : Int) (last : Option Int) (m : model F) : Prop :=
  m.inspection = true →
    m.inspectionStart = began ∧ began ≤ clk ∧
    0 ≤ inspectionTime last began ∧ inspectionTime last began ≤ clk - began ∧
    m.inspectionElapsed = min (inspectionTime last began) maxDuration ∧
    m.penalty = penaltyRule m.inspectionElapsed

/-- Tick messages handled at the clock readings `ts`, in that order. -/
def tickEvents (ts : List Int) : List (Int × Msg) :=
  ts.map (fun t => (t, Msg.tickMsg))

/-- The first part of the scenario: advance at `t0`, ticks at the readings `ticks`, a last
tick at `tlast`, and the second advance at `t0 + 16s`. -/
def inspectionEvents (t0 : Int) (ticks : List Int) (tlast : Int) : List (Int × Msg) :=
  (t0, advance) :: (tickEvents ticks ++ [(tlast, Msg.tickMsg), (t0 + 16 * Second, advance)])

/-- The second part of the scenario: ticks at the readings `ticks` and the third advance
5s after the second. -/
def solveEvents (t0 : Int) (ticks : List Int) : List (Int × Msg) :=
  tickEvents ticks ++ [(t0 + 16 * Second + 5 * Second, advance)]

/-- A model in the Inspecting phase whose last tick was 15.001s into the inspection. -/
def exInspecting : model ℚ :=
  { initialModel [] with inspection := true, inspectionElapsed := 15001000000,
                         penalty := "+2" }

/-- A model in the Running phase, started at clock reading 1s with penalty `+2` and
one earlier solve. -/
def exRunning : model ℚ :=
  { initialModel [({ Time := 9, Penalty := "" } : solveResult ℚ)] with
      running := true, start := 1000000000, penalty := "+2" }

end SolveTimer

namespace SolveTimer

/-- With the history view closed the space key reaches the `case " "` branch. -/
theorem Update_advance {F : Type} [Float64 F] (m : model F) (now : Int)
    (hv : m.viewingAllSolves = false) : m.Update now advance = updateSpace m now := by
  simp [model.Update, advance, hv]

/-- With the history view closed the key `r` reaches the `case "r"` branch. -/
theorem Update_reset {F : Type} [Float64 F] (m : model F) (now : Int)
    (hv : m.viewingAllSolves = false) :
    m.Update now reset =
      fallThrough { m with running := false, inspection := false, elapsed := 0,
                           penalty := "", inspectionElapsed := 0 } := by
  simp [model.Update, reset, hv]

/-- The model returned by the end of `Update` is the model it was given. -/
@[simp]
theorem fallThrough_fst {F : Type} (m : model F) : (fallThrough m).1 = m := by
  unfold fallThrough
  split <;> rfl

/-- One call of `Update` with the history view closed moves the phase as the table says. -/
theorem phase_Update {F : Type} [Float64 F] (m : model F) (p : Phase) (now : Int) (msg : Msg)
    (hp : phase m = some p) (hv : m.viewingAllSolves = false) :
    phase (m.Update now msg).1 = some (phaseTable p msg) := by
  obtain ⟨r, st, el, q, w, h, sv, ins, is, ie, pen, v, so⟩ := m
  simp only at hv
  subst hv
  cases msg with
  | KeyMsg key =>
    by_cases hsp : key = " "
    · subst hsp
      cases ins <;> cases r <;> simp [phase] at hp <;> subst hp <;>
        simp [model.Update, updateSpace, phaseTable, advance, phase, fallThrough] <;>
        split_ifs <;> simp
    · by_cases hr : key = "r"
      · subst hr
        cases ins <;> cases r <;> simp [phase] at hp <;> subst hp <;>
          simp [model.Update, phaseTable, advance, reset, phase, fallThrough]
      · cases ins <;> cases r <;> simp [phase] at hp <;> subst hp <;>
          simp [model.Update, phaseTable, advance, reset, phase, fallThrough, hsp, hr] <;>
          split_ifs <;> simp
  | tickMsg =>
    cases ins <;> cases r <;> simp [phase] at hp <;> subst hp <;>
      simp [model.Update, updateTick, phaseTable, advance, reset, phase, fallThrough] <;>
      split_ifs <;> simp
  | WindowSizeMsg w2 h2 =>
    cases ins <;> cases r <;> simp [phase] at hp <;> subst hp <;>
      simp [model.Update, phaseTable, advance, reset, phase, fallThrough]
  | other =>
    cases ins <;> cases r <;> simp [phase] at hp <;> subst hp <;>
      simp [model.Update, phaseTable, advance, reset, phase, fallThrough]

/-- While the history view is open a key press leaves both phase flags as they are. -/
theorem viewing_key_flags {F : Type} [Float64 F] (m : model F) (now : Int) (key : String)
    (hv : m.viewingAllSolves = true) :
    (m.Update now (Msg.KeyMsg key)).1.inspection = m.inspection ∧
    (m.Update now (Msg.KeyMsg key)).1.running = m.running := by
  simp only [model.Update, hv, if_true, updateViewingKey]
  split_ifs <;> simp

/-- No call of `Update` sets both phase flags when they were not both set. -/
theorem flags_Update {F : Type} [Float64 F] (m : model F) (now : Int) (msg : Msg)
    (h : ¬ (m.inspection = true ∧ m.running = true)) :
    ¬ ((m.Update now msg).1.inspection = true ∧ (m.Update now msg).1.running = true) := by
  cases hv : m.viewingAllSolves with
  | false =>
    have hp : ∃ p, phase m = some p := by
      revert h
      cases hi : m.inspection <;> cases hr : m.running <;> simp [phase, hi, hr]
    obtain ⟨p, hp⟩ := hp
    have h2 := phase_Update m p now msg hp hv
    rintro ⟨h3, h4⟩
    simp [phase, h3, h4] at h2
  | true =>
    cases msg with
    | KeyMsg key =>
      obtain ⟨h1, h2⟩ := viewing_key_flags m now key hv
      rw [h1, h2]; exact h
    | tickMsg =>
      obtain ⟨r, st, el, q, w, h, sv, ins, is, ie, pen, v, so⟩ := m
      revert h
      cases ins <;> cases r <;> simp [model.Update, updateTick, fallThrough] <;>
        split_ifs <;> simp
    | WindowSizeMsg w2 h2 =>
      obtain ⟨r, st, el, q, w, h, sv, ins, is, ie, pen, v, so⟩ := m
      revert h
      cases ins <;> cases r <;> simp [model.Update, fallThrough]
    | other =>
      obtain ⟨r, st, el, q, w, h, sv, ins, is, ie, pen, v, so⟩ := m
      revert h
      cases ins <;> cases r <;> simp [model.Update, fallThrough]

/-- No reachable state has both phase flags set. -/
theorem Reachable.flags {F : Type} [Float64 F] {m : model F} (h : Reachable m) :
    ¬ (m.inspection = true ∧ m.running = true) := by
  induction h with
  | init loaded => simp [initialModel]
  | step now msg _ ih => exact flags_Update _ now msg ih

/-- One call of `Update` keeps the scroll offset between 0 and the last index of the
history (0 for an empty history). -/
theorem scroll_Update {F : Type} [Float64 F] (m : model F) (now : Int) (msg : Msg)
    (h : 0 ≤ m.scrollOffset ∧
      (m.scrollOffset = 0 ∨ m.scrollOffset ≤ (m.solves.length : Int) - 1)) :
    0 ≤ (m.Update now msg).1.scrollOffset ∧
      ((m.Update now msg).1.scrollOffset = 0 ∨
        (m.Update now msg).1.scrollOffset ≤ ((m.Update now msg).1.solves.length : Int) - 1) := by
  obtain ⟨r, st, el, q, w, ht, sv, ins, is, ie, pen, v, so⟩ := m
  simp only at h
  cases msg with
  | KeyMsg key =>
    simp only [model.Update, updateViewingKey, updateSpace, fallThrough]
    split_ifs <;> simp <;> omega
  | tickMsg =>
    simp only [model.Update, updateTick, fallThrough]
    split_ifs <;> simp <;> omega
  | WindowSizeMsg w2 h2 =>
    simp only [model.Update, fallThrough]
    split_ifs <;> simp <;> omega
  | other =>
    simp only [model.Update, fallThrough]
    split_ifs <;> simp <;> omega

/-- In every reachable state the scroll offset is between 0 and the last index of the
history (0 for an empty history). -/
theorem Reachable.scroll {F : Type} [Float64 F] {m : model F} (h : Reachable m) :
    0 ≤ m.scrollOffset ∧
      (m.scrollOffset = 0 ∨ m.scrollOffset ≤ (m.solves.length : Int) - 1) := by
  induction h with
  | init loaded => simp [initialModel]
  | step now msg _ ih => exact scroll_Update _ now msg ih

/-- An exact value within the range of the 64-bit int is not changed by wrapping. -/
theorem wrapInt_eq {x : Int} (hlo : MinInt ≤ x) (hhi : x ≤ MaxInt) : wrapInt x = x := by
  simp only [MinInt, MaxInt] at hlo hhi
  simp only [wrapInt]
  omega

/-- The loop of the history view, started at an index `i ≥ 0` with an end `stop` that is
at most the length of the history, reads no index out of range and appends the lines of
the records at indices `[i, stop)`. -/
theorem viewLoop_eq {F : Type} (solves : List (solveResult F)) (stop : Int)
    (hstop : stop ≤ (solves.length : Int)) :
    ∀ (fuel : Nat) (i : Int) (lines : List (Line F)), 0 ≤ i → fuel = (stop - i).toNat →
      viewLoop solves stop fuel i lines =
        some (lines ++ listing i ((solves.drop i.toNat).take fuel)) := by
  intro fuel
  induction fuel with
  | zero =>
    intro i lines _ _
    simp [viewLoop, listing]
  | succ n ih =>
    intro i lines hi hf
    have hlt : i < stop := by omega
    have hlen : i.toNat < solves.length := by omega
    have hidx : index solves i = some (solves[i.toNat]) := by
      have : 0 ≤ i ∧ i < (solves.length : Int) := ⟨hi, by omega⟩
      simp [index, this, List.getElem?_eq_getElem hlen]
    have hnext : (i + 1).toNat = i.toNat + 1 := by omega
    have hcast : ((i.toNat : Nat) : Int) = i := by omega
    simp only [viewLoop, hlt, if_true, hidx]
    rw [ih (i + 1) _ (by omega) (by omega)]
    rw [List.drop_eq_getElem_cons hlen]
    simp [listing, List.enumFrom, hcast, hnext]

/-- A tick while inspecting refreshes the cached inspection time and raises the penalty
when the time is past 15s or 17s; nothing else changes. -/
theorem updateTick_inspecting {F : Type} (m : model F) (now : Int)
    (hi : m.inspection = true) :
    (updateTick m now).1 =
      { m with inspectionElapsed := Since now m.inspectionStart,
               penalty := if Since now m.inspectionStart > 17 * Second then "DNF"
                          else if Since now m.inspectionStart > 15 * Second then "+2"
                          else m.penalty } := by
  simp only [updateTick, hi, if_true]
  split_ifs <;> rfl

/-- The time since an earlier instant is the difference of the clock readings, capped at
the largest duration. -/
theorem Since_eq_min {now t : Int} (h : t ≤ now) : Since now t = min (now - t) maxDuration := by
  simp only [Since, Sub, maxDuration, minDuration]
  split_ifs <;> omega

/-- A message other than a tick that leaves the model inspecting changes neither the
recorded inspection start nor the cached inspection time nor the penalty. -/
theorem inspecting_frame {F : Type} [Float64 F] (m : model F) (now : Int) (msg : Msg)
    (hi : m.inspection = true) (hmsg : msg ≠ Msg.tickMsg)
    (hi2 : (m.Update now msg).1.inspection = true) :
    (m.Update now msg).1.inspectionStart = m.inspectionStart ∧
    (m.Update now msg).1.inspectionElapsed = m.inspectionElapsed ∧
    (m.Update now msg).1.penalty = m.penalty := by
  obtain ⟨r, st, el, q, w, ht, sv, ins, is, ie, pen, v, so⟩ := m
  simp only at hi
  subst hi
  cases msg with
  | KeyMsg key =>
    revert hi2
    simp only [model.Update, updateViewingKey, updateSpace, fallThrough]
    split_ifs <;> simp
  | tickMsg => exact absurd rfl hmsg
  | WindowSizeMsg nw nh => simp [model.Update]
  | other => simp [model.Update]

/-- A message handled while not inspecting that leaves the model inspecting started the
inspection: the recorded start is the clock reading, the cached time 0, the penalty "". -/
theorem inspection_begins {F : Type} [Float64 F] (m : model F) (now : Int) (msg : Msg)
    (hi : m.inspection = false) (hi2 : (m.Update now msg).1.inspection = true) :
    (m.Update now msg).1.inspectionStart = now ∧
    (m.Update now msg).1.inspectionElapsed = 0 ∧
    (m.Update now msg).1.penalty = "" := by
  obtain ⟨r, st, el, q, w, ht, sv, ins, is, ie, pen, v, so⟩ := m
  simp only at hi
  subst hi
  cases msg with
  | KeyMsg key =>
    revert hi2
    simp only [model.Update, updateViewingKey, updateSpace, fallThrough]
    split_ifs <;> simp
  | tickMsg =>
    revert hi2
    simp only [model.Update, updateTick, fallThrough]
    split_ifs <;> simp
  | WindowSizeMsg nw nh => simp [model.Update] at hi2
  | other => simp [model.Update] at hi2

/-- While the model is inspecting and the clock does not go back, a message does not
decrease the inspection time. -/
theorem inspectionTime_mono {F : Type} (m : model F) (clk now began : Int)
    (last : Option Int) (msg : Msg) (hi : m.inspection = true) (hclk : clk ≤ now)
    (hle : inspectionTime last began ≤ clk - began) :
    inspectionTime last began ≤
      inspectionTime (lastTickAfter m now msg last) (beganAfter m now began) := by
  have hb : beganAfter m now began = began := by simp [beganAfter, hi]
  rw [hb]
  by_cases hmsg : msg = Msg.tickMsg
  · have hl : lastTickAfter m now msg last = some now := by simp [lastTickAfter, hi, hmsg]
    rw [hl]
    simp only [inspectionTime] at hle ⊢
    omega
  · have hl : lastTickAfter m now msg last = last := by simp [lastTickAfter, hi, hmsg]
    rw [hl]

/-- One call of `Update` at a clock reading not before the last one keeps `InspectInv`. -/
theorem inspectInv_step {F : Type} [Float64 F] (m : model F) (clk now began : Int)
    (last : Option Int) (msg : Msg) (hclk : clk ≤ now) (h : InspectInv clk began last m) :
    InspectInv now (beganAfter m now began) (lastTickAfter m now msg last)
      (m.Update now msg).1 := by
  intro hi2
  cases hi : m.inspection with
  | false =>
    obtain ⟨g1, g2, g3⟩ := inspection_begins m now msg hi hi2
    have hb : beganAfter m now began = now := by simp [beganAfter, hi]
    have hl : lastTickAfter m now msg last = none := by simp [lastTickAfter, hi]
    rw [hb, hl]
    simp only [inspectionTime]
    refine ⟨g1, le_refl _, le_refl _, by omega, ?_, ?_⟩
    · rw [g2]; simp [maxDuration]
    · rw [g2, g3]; simp [penaltyRule, Second]
  | true =>
    obtain ⟨h1, h2, h3, h4, h5, h6⟩ := h hi
    have hmono := inspectionTime_mono m clk now began last msg hi hclk h4
    by_cases hmsg : msg = Msg.tickMsg
    · subst hmsg
      have hu : (m.Update now Msg.tickMsg).1 = (updateTick m now).1 := rfl
      have hs : Since now m.inspectionStart = min (now - began) maxDuration := by
        rw [h1]; exact Since_eq_min (by omega)
      have hb : beganAfter m now began = began := by simp [beganAfter, hi]
      have hl : lastTickAfter m now Msg.tickMsg last = some now := by simp [lastTickAfter, hi]
      rw [hb, hl]
      simp only [inspectionTime]
      rw [hu, updateTick_inspecting m now hi]
      refine ⟨h1, by omega, by omega, le_refl _, hs, ?_⟩
      have hle : m.inspectionElapsed ≤ Since now m.inspectionStart := by
        rw [hs, h5]
        exact min_le_min (by omega) (le_refl _)
      simp only [penaltyRule, Second] at h6 ⊢
      generalize Since now m.inspectionStart = x at *
      rw [h6]
      split_ifs <;> first | rfl | (exfalso; omega)
    · obtain ⟨f1, f2, f3⟩ := inspecting_frame m now msg hi hmsg hi2
      have hb : beganAfter m now began = began := by simp [beganAfter, hi]
      have hl : lastTickAfter m now msg last = last := by simp [lastTickAfter, hi, hmsg]
      rw [hb, hl]
      refine ⟨f1.trans h1, by omega, h3, by omega, ?_, ?_⟩
      · rw [f2]; exact h5
      · rw [f2, f3]; exact h6

/-- Under a clock that never goes backwards every reachable state satisfies `InspectInv`. -/
theorem MonoReachable.inv {F : Type} [Float64 F] {clk began : Int} {last : Option Int}
    {m : model F} (h : MonoReachable clk began last m) : InspectInv clk began last m := by
  induction h with
  | init loaded clk => intro hi; simp [initialModel] at hi
  | step now msg _ hclk ih => exact inspectInv_step _ _ now _ _ msg hclk ih

/-- Capping the inspection time at the largest duration does not change its penalty. -/
theorem penaltyRule_min (d : Int) : penaltyRule (min d maxDuration) = penaltyRule d := by
  simp only [penaltyRule, Second, maxDuration]
  split_ifs <;> first | rfl | (exfalso; omega)

/-- A longer inspection never has a milder penalty. -/
theorem penaltyRule_mono {d e : Int} (h : d ≤ e) :
    penaltyRank (penaltyRule d) ≤ penaltyRank (penaltyRule e) := by
  simp only [penaltyRule, Second]
  split_ifs <;> first | (exfalso; omega) | simp [penaltyRank]

/-- The rule gives `DNF` exactly beyond 17s. -/
theorem penaltyRule_DNF (d : Int) : penaltyRule d = "DNF" ↔ 17 * Second < d := by
  simp only [penaltyRule, Second]
  split_ifs <;> simp <;> omega

/-- Handling a list of events is handling a first part and then the rest. -/
theorem run_append {F : Type} [Float64 F] (m : model F) (a b : List (Int × Msg)) :
    run m (a ++ b) = run (run m a) b := by
  simp [run, List.foldl_append]

/-- A tick while running (and not inspecting) refreshes the elapsed time only. -/
theorem updateTick_running {F : Type} (m : model F) (now : Int)
    (hi : m.inspection = false) (hr : m.running = true) :
    (updateTick m now).1 = { m with elapsed := Since now m.start } := by
  simp [updateTick, hi, hr]

/-- Ticks while inspecting keep the model inspecting and leave the inspection start, the
history, the history view and the running flag alone. -/
theorem run_ticks_inspecting {F : Type} [Float64 F] (ts : List Int) :
    ∀ m : model F, m.inspection = true →
      (run m (tickEvents ts)).inspection = true ∧
      (run m (tickEvents ts)).inspectionStart = m.inspectionStart ∧
      (run m (tickEvents ts)).solves = m.solves ∧
      (run m (tickEvents ts)).viewingAllSolves = m.viewingAllSolves ∧
      (run m (tickEvents ts)).running = m.running := by
  induction ts with
  | nil => intro m hi; simp [run, tickEvents, hi]
  | cons t ts ih =>
    intro m hi
    have hs : run m (tickEvents (t :: ts)) = run (updateTick m t).1 (tickEvents ts) := rfl
    rw [hs, updateTick_inspecting m t hi]
    exact ih _ hi

/-- Ticks while running keep the model running and leave the run start, the penalty, the
history and the history view alone. -/
theorem run_ticks_running {F : Type} [Float64 F] (ts : List Int) :
    ∀ m : model F, m.inspection = false → m.running = true →
      (run m (tickEvents ts)).inspection = false ∧
      (run m (tickEvents ts)).running = true ∧
      (run m (tickEvents ts)).start = m.start ∧
      (run m (tickEvents ts)).penalty = m.penalty ∧
      (run m (tickEvents ts)).solves = m.solves ∧
      (run m (tickEvents ts)).viewingAllSolves = m.viewingAllSolves := by
  induction ts with
  | nil => intro m hi hr; simp [run, tickEvents, hi, hr]
  | cons t ts ih =>
    intro m hi hr
    have hs : run m (tickEvents (t :: ts)) = run (updateTick m t).1 (tickEvents ts) := rfl
    rw [hs, updateTick_running m t hi hr]
    exact ih _ hi hr

/-- Advance in the Idle phase with the history view closed starts an inspection at the
clock reading and keeps the history. -/
theorem advance_idle {F : Type} [Float64 F] (m : model F) (now : Int)
    (hi : m.inspection = false) (hr : m.running = false) (hv : m.viewingAllSolves = false) :
    (m.Update now advance).1.inspection = true ∧
    (m.Update now advance).1.inspectionStart = now ∧
    (m.Update now advance).1.solves = m.solves ∧
    (m.Update now advance).1.viewingAllSolves = false ∧
    (m.Update now advance).1.running = false := by
  rw [Update_advance m now hv]
  simp [updateSpace, hi, hr, hv]

/-- A tick while inspecting sets the cached inspection time to the time since the
inspection start. -/
theorem tick_inspecting {F : Type} (m : model F) (now : Int) (hi : m.inspection = true) :
    (updateTick m now).1.inspection = true ∧
    (updateTick m now).1.inspectionElapsed = Since now m.inspectionStart ∧
    (updateTick m now).1.solves = m.solves ∧
    (updateTick m now).1.viewingAllSolves = m.viewingAllSolves ∧
    (updateTick m now).1.running = m.running := by
  rw [updateTick_inspecting m now hi]
  exact ⟨hi, rfl, rfl, rfl, rfl⟩

/-- Advance while inspecting with the history view closed starts the run at the clock
reading and sets the penalty from the cached inspection time. -/
theorem advance_inspecting {F : Type} [Float64 F] (m : model F) (now : Int)
    (hi : m.inspection = true) (hv : m.viewingAllSolves = false) :
    (m.Update now advance).1.inspection = false ∧
    (m.Update now advance).1.running = true ∧
    (m.Update now advance).1.start = now ∧
    (m.Update now advance).1.solves = m.solves ∧
    (m.Update now advance).1.viewingAllSolves = m.viewingAllSolves ∧
    (m.Update now advance).1.penalty =
      (if m.inspectionElapsed > 15 * Second ∧ m.inspectionElapsed ≤ 17 * Second then "+2"
       else if m.inspectionElapsed > 17 * Second then "DNF" else "") := by
  rw [Update_advance m now hv]
  simp only [updateSpace, hi, if_true]
  split_ifs <;> simp

/-- Advance while running with the history view closed stops the run and puts the new
record in front of the history. -/
theorem advance_running {F : Type} [Float64 F] (m : model F) (now : Int)
    (hi : m.inspection = false) (hr : m.running = true) (hv : m.viewingAllSolves = false) :
    (m.Update now advance).1.inspection = false ∧
    (m.Update now advance).1.running = false ∧
    (m.Update now advance).1.solves = stopRecord (Since now m.start) m.penalty :: m.solves := by
  rw [Update_advance m now hv]
  simp [updateSpace, hi, hr]

/-- C1: when advance is handled in the Inspecting phase with the history view closed, the
model is Running afterwards and its penalty is "" iff the cached inspection time is at most
15s, "+2" iff it is above 15s and at most 17s, and "DNF" iff it is above 17s, whatever the
penalty was before; 15.000s gives "", 15.001s gives "+2", 17.000s gives "+2" and 17.001s
gives "DNF". -/
theorem C1_inspection_penalty {F : Type} [Float64 F] (m : model F) (now : Int)
    (hv : m.viewingAllSolves = false) (hi : m.inspection = true) :
    (m.Update now advance).1.inspection = false ∧
    (m.Update now advance).1.running = true ∧
    ((m.Update now advance).1.penalty = "" ↔ m.inspectionElapsed ≤ 15 * Second) ∧
    ((m.Update now advance).1.penalty = "+2" ↔
      15 * Second < m.inspectionElapsed ∧ m.inspectionElapsed ≤ 17 * Second) ∧
    ((m.Update now advance).1.penalty = "DNF" ↔ 17 * Second < m.inspectionElapsed) ∧
    (m.inspectionElapsed = 15000000000 → (m.Update now advance).1.penalty = "") ∧
    (m.inspectionElapsed = 15001000000 → (m.Update now advance).1.penalty = "+2") ∧
    (m.inspectionElapsed = 17000000000 → (m.Update now advance).1.penalty = "+2") ∧
    (m.inspectionElapsed = 17001000000 → (m.Update now advance).1.penalty = "DNF") := by
  have hS : Second = 1000000000 := rfl
  rw [Update_advance m now hv]
  simp only [updateSpace, hi, hS, if_true]
  split_ifs with h1 h2 <;> simp <;> omega

/-- C1 at a concrete input: an inspection whose cached time is 15.001s gives "+2". -/
theorem C1_inspection_penalty_witness :
    exInspecting.viewingAllSolves = false ∧ exInspecting.inspection = true ∧
    (exInspecting.Update 0 advance).1.penalty = "+2" :=
  ⟨rfl, rfl, (C1_inspection_penalty exInspecting 0 rfl rfl).2.2.2.2.2.2.1 rfl⟩

/-- C2: when advance is handled in the Running phase (history view closed) with frozen
penalty p, one of "", "+2" and "DNF", and raw elapsed time e = clock reading minus run
start, the record put at the head of the history has penalty p and time e.Seconds() + 2
when p is "+2" and e.Seconds() otherwise. -/
theorem C2_finalize_record {F : Type} [Float64 F] (m : model F) (now : Int)
    (hv : m.viewingAllSolves = false) (hi : m.inspection = false) (hr : m.running = true)
    (hp : m.penalty = "" ∨ m.penalty = "+2" ∨ m.penalty = "DNF") :
    (m.Update now advance).1.solves.head? =
      some { Time := if m.penalty = "+2"
                       then Float64.add (Float64.seconds (Since now m.start)) Float64.two
                       else Float64.seconds (Since now m.start),
             Penalty := m.penalty } := by
  rw [Update_advance m now hv]
  simp only [updateSpace, hi, hr]
  rcases hp with hp | hp | hp <;> simp [hp, stopRecord]

/-- C2 at a concrete input, in exact arithmetic: penalty "+2" and 12.340s of raw elapsed
time give the record with time 14.340 and penalty "+2". -/
theorem C2_finalize_record_witness :
    exRunning.viewingAllSolves = false ∧ exRunning.inspection = false ∧
    exRunning.running = true ∧
    (exRunning.penalty = "" ∨ exRunning.penalty = "+2" ∨ exRunning.penalty = "DNF") ∧
    Since 13340000000 exRunning.start = 12340000000 ∧
    (exRunning.Update 13340000000 advance).1.solves.head? =
      some { Time := (1434 : ℚ) / 100, Penalty := "+2" } := by
  refine ⟨rfl, rfl, rfl, Or.inr (Or.inl rfl), by decide, ?_⟩
  rw [C2_finalize_record exRunning 13340000000 rfl rfl rfl (Or.inr (Or.inl rfl))]
  have h : Since 13340000000 exRunning.start = 12340000000 := by decide
  rw [h]
  simp only [exRunning, Float64.seconds, Float64.add, Float64.two]
  norm_num

/-- C3, as stated, fails: two advances and the key v on a history of one record reach a
state in the Running phase with the history view open, where the space key is swallowed:
the history stays as it is and does not grow. -/
theorem C3_counterexample :
    Reachable exRunningViewing ∧
    phase exRunningViewing = some Phase.Running ∧
    exRunningViewing.solves = [{ Time := 9, Penalty := "" }] ∧
    (exRunningViewing.Update 3000000000 advance).1.solves = exRunningViewing.solves ∧
    (exRunningViewing.Update 3000000000 advance).1.solves.length ≠
      exRunningViewing.solves.length + 1 := by
  refine ⟨?_, by decide, by decide, by rfl, by decide⟩
  exact Reachable.step 2000000000 (Msg.KeyMsg "v")
    (Reachable.step 1000000000 advance (Reachable.step 0 advance (Reachable.init _)))

/-- C3, amended: when advance is handled in the Running phase with the history view
closed and history h, the new history is r :: h with r the finalized record: one longer,
r at position 0, every earlier record one position later.  Three such steps from an empty
history, each starting from the history the one before left, give [C, B, A], whose first
two records are [C, B]. -/
theorem C3_history_prepend {F : Type} [Float64 F] (m : model F) (now : Int)
    (hv : m.viewingAllSolves = false) (hi : m.inspection = false) (hr : m.running = true) :
    (m.Update now advance).1.solves = stopRecord (Since now m.start) m.penalty :: m.solves ∧
    (m.Update now advance).1.solves.length = m.solves.length + 1 ∧
    (m.Update now advance).1.solves[0]? = some (stopRecord (Since now m.start) m.penalty) ∧
    (∀ i : Nat, (m.Update now advance).1.solves[i + 1]? = m.solves[i]?) ∧
    (∀ (mB mC : model F) (nowB nowC : Int),
      mB.viewingAllSolves = false → mB.inspection = false → mB.running = true →
      mC.viewingAllSolves = false → mC.inspection = false → mC.running = true →
      m.solves = [] →
      mB.solves = (m.Update now advance).1.solves →
      mC.solves = (mB.Update nowB advance).1.solves →
      (mC.Update nowC advance).1.solves =
        [stopRecord (Since nowC mC.start) mC.penalty,
         stopRecord (Since nowB mB.start) mB.penalty,
         stopRecord (Since now m.start) m.penalty] ∧
      (mC.Update nowC advance).1.solves.take 2 =
        [stopRecord (Since nowC mC.start) mC.penalty,
         stopRecord (Since nowB mB.start) mB.penalty]) := by
  have key : ∀ (x : model F) (t : Int), x.viewingAllSolves = false → x.inspection = false →
      x.running = true →
      (x.Update t advance).1.solves = stopRecord (Since t x.start) x.penalty :: x.solves := by
    intro x t h1 h2 h3
    rw [Update_advance x t h1]
    simp only [updateSpace, h2, h3]
    simp
  refine ⟨key m now hv hi hr, ?_, ?_, ?_, ?_⟩
  · rw [key m now hv hi hr]; simp
  · rw [key m now hv hi hr]; simp
  · intro i; rw [key m now hv hi hr]; simp
  · intro mB mC nowB nowC hvB hiB hrB hvC hiC hrC hm hB hC
    rw [key mC nowC hvC hiC hrC, hC, key mB nowB hvB hiB hrB, hB, key m now hv hi hr, hm]
    simp

/-- C3, amended, at a concrete input: finalizing with one earlier solve in the history puts the new
record in front of it. -/
theorem C3_history_prepend_witness :
    exRunning.viewingAllSolves = false ∧ exRunning.inspection = false ∧
    exRunning.running = true ∧
    (exRunning.Update 13340000000 advance).1.solves =
      ([stopRecord 12340000000 "+2", { Time := 9, Penalty := "" }] : List (solveResult ℚ)) :=
  ⟨rfl, rfl, rfl, (C3_history_prepend exRunning 13340000000 rfl rfl rfl).1⟩

/-- C4: when reset (the key r) is handled with the history view closed, in any phase, the
new state is Idle (neither inspecting nor running), elapsed and inspection elapsed are 0,
the penalty is "" and the history is the one before. -/
theorem C4_reset {F : Type} [Float64 F] (m : model F) (now : Int)
    (hv : m.viewingAllSolves = false) :
    phase (m.Update now reset).1 = some Phase.Idle ∧
    (m.Update now reset).1.inspection = false ∧
    (m.Update now reset).1.running = false ∧
    (m.Update now reset).1.elapsed = 0 ∧
    (m.Update now reset).1.inspectionElapsed = 0 ∧
    (m.Update now reset).1.penalty = "" ∧
    (m.Update now reset).1.solves = m.solves := by
  rw [Update_reset m now hv, fallThrough_fst]
  simp [phase]

/-- C4 at a concrete input: reset in the Running phase keeps the one recorded solve. -/
theorem C4_reset_witness :
    exRunning.viewingAllSolves = false ∧
    phase (exRunning.Update 5 reset).1 = some Phase.Idle ∧
    (exRunning.Update 5 reset).1.elapsed = 0 ∧
    (exRunning.Update 5 reset).1.penalty = "" ∧
    (exRunning.Update 5 reset).1.solves = [{ Time := 9, Penalty := "" }] :=
  ⟨rfl, (C4_reset exRunning 5 rfl).1, (C4_reset exRunning 5 rfl).2.2.2.1,
    (C4_reset exRunning 5 rfl).2.2.2.2.2.1, (C4_reset exRunning 5 rfl).2.2.2.2.2.2⟩

/-- C6: a reachable state never has both the inspecting and the running flag set, and
with the history view closed the phase after one call of Update is the phase the table
gives: advance maps Idle to Inspecting, Inspecting to Running and Running to Idle, reset
maps every phase to Idle, and a tick, a resize and every other key keep the phase. -/
theorem C6_phase_table {F : Type} [Float64 F] (m : model F) (hreach : Reachable m) :
    ¬ (m.inspection = true ∧ m.running = true) ∧
    (m.viewingAllSolves = false →
      ∃ p, phase m = some p ∧
        ∀ (now : Int) (msg : Msg), phase (m.Update now msg).1 = some (phaseTable p msg)) := by
  refine ⟨hreach.flags, fun hv => ?_⟩
  have h := hreach.flags
  have hp : ∃ p, phase m = some p := by
    revert h
    cases hi : m.inspection <;> cases hr : m.running <;> simp [phase, hi, hr]
  obtain ⟨p, hp⟩ := hp
  exact ⟨p, hp, fun now msg => phase_Update m p now msg hp hv⟩

/-- C6 at a concrete input: the state reached by one advance from the initial model. -/
theorem C6_phase_table_witness :
    Reachable ((initialModel ([] : List (solveResult ℚ))).Update 0 advance).1 ∧
    ¬ (((initialModel ([] : List (solveResult ℚ))).Update 0 advance).1.inspection = true ∧
       ((initialModel ([] : List (solveResult ℚ))).Update 0 advance).1.running = true) :=
  ⟨Reachable.step 0 advance (Reachable.init []),
   (C6_phase_table _ (Reachable.step 0 advance (Reachable.init []))).1⟩

/-- C7: in every reachable state the scroll offset is at least 0, at most
len(history) - 1 when the history is not empty, and 0 when it is empty; the keys that
scroll up leave an offset of 0 unchanged and the keys that scroll down leave the offset of
the last record unchanged. -/
theorem C7_scroll_offset {F : Type} [Float64 F] (m : model F) (hreach : Reachable m) :
    0 ≤ m.scrollOffset ∧
    (m.solves ≠ [] → m.scrollOffset ≤ (m.solves.length : Int) - 1) ∧
    (m.solves = [] → m.scrollOffset = 0) ∧
    (∀ (now : Int) (key : String), key = "up" ∨ key = "k" → m.scrollOffset = 0 →
      (m.Update now (Msg.KeyMsg key)).1.scrollOffset = m.scrollOffset) ∧
    (∀ (now : Int) (key : String), key = "down" ∨ key = "j" →
      m.scrollOffset = (m.solves.length : Int) - 1 →
      (m.Update now (Msg.KeyMsg key)).1.scrollOffset = m.scrollOffset) := by
  obtain ⟨h0, h1⟩ := hreach.scroll
  refine ⟨h0, ?_, ?_, ?_, ?_⟩
  · intro hne
    have : 0 < m.solves.length := List.length_pos.mpr hne
    omega
  · intro he
    rw [he] at h1
    simp at h1
    omega
  · intro now key hk hz
    cases hv : m.viewingAllSolves <;>
      rcases hk with hk | hk <;> subst hk <;>
      simp [model.Update, updateViewingKey, hv, hz]
  · intro now key hk hz
    cases hv : m.viewingAllSolves <;>
      rcases hk with hk | hk <;> subst hk <;>
      simp [model.Update, updateViewingKey, hv, hz]

/-- C7 at a concrete input: after opening the history view on a one-record history and
pressing the key that scrolls down, the offset is still 0. -/
theorem C7_scroll_offset_witness :
    Reachable (run (initialModel [({ Time := 9, Penalty := "" } : solveResult ℚ)])
      [(0, Msg.KeyMsg "v"), (1, Msg.KeyMsg "down")]) ∧
    0 ≤ (run (initialModel [({ Time := 9, Penalty := "" } : solveResult ℚ)])
      [(0, Msg.KeyMsg "v"), (1, Msg.KeyMsg "down")]).scrollOffset ∧
    ((run (initialModel [({ Time := 9, Penalty := "" } : solveResult ℚ)])
      [(0, Msg.KeyMsg "v"), (1, Msg.KeyMsg "down")]).solves = [] →
     (run (initialModel [({ Time := 9, Penalty := "" } : solveResult ℚ)])
      [(0, Msg.KeyMsg "v"), (1, Msg.KeyMsg "down")]).scrollOffset = 0) :=
  ⟨Reachable.step 1 (Msg.KeyMsg "down") (Reachable.step 0 (Msg.KeyMsg "v") (Reachable.init _)),
   (C7_scroll_offset _
      (Reachable.step 1 (Msg.KeyMsg "down")
        (Reachable.step 0 (Msg.KeyMsg "v") (Reachable.init _)))).1,
   (C7_scroll_offset _
      (Reachable.step 1 (Msg.KeyMsg "down")
        (Reachable.step 0 (Msg.KeyMsg "v") (Reachable.init _)))).2.2.1⟩

/-- C8, as stated, fails: with three records, offset 0 and the smallest int as window
height, the height is at most 4 and the window of the claim is empty, but height - 4
wraps around to a large positive number and the view lists all three records. -/
theorem C8_counterexample :
    0 ≤ exTall.scrollOffset ∧ exTall.height ≤ 4 ∧
    window exTall.solves exTall.scrollOffset exTall.height = [] ∧
    exTall.viewAllSolvesView =
      some [Line.title, Line.plusTwo 1 7, Line.dnf 2, Line.plain 3 9] ∧
    exTall.viewAllSolvesView ≠ some [Line.title, Line.noSolves] := by
  have h : exTall.viewAllSolvesView =
      some [Line.title, Line.plusTwo 1 7, Line.dnf 2, Line.plain 3 9] := by decide
  refine ⟨by decide, by decide, by decide, h, ?_⟩
  rw [h]
  decide

/-- C8, amended: for every history, window height and scroll offset at least 0 for which
height - 4 and offset + (height - 4) do not overflow the 64-bit int, the full-history
view reads no index out of range and lists, after its title, exactly the records at
indices [offset, min(offset + height - 4, len(history))) in history order (the line
"No solves yet." when there are none); that window is empty whenever the offset is at
least len(history) or the height is at most 4. -/
theorem C8_view_window {F : Type} (m : model F) (hoff : 0 ≤ m.scrollOffset)
    (hlo : MinInt ≤ m.height - 4) (hhi : m.scrollOffset + (m.height - 4) ≤ MaxInt) :
    m.viewAllSolvesView =
      some (Line.title ::
        (if (window m.solves m.scrollOffset m.height).isEmpty then [Line.noSolves]
         else listing m.scrollOffset (window m.solves m.scrollOffset m.height))) ∧
    (∀ k : Nat, (window m.solves m.scrollOffset m.height)[k]? =
      if m.scrollOffset + k < min (m.scrollOffset + m.height - 4) (m.solves.length : Int)
      then m.solves[m.scrollOffset.toNat + k]? else none) ∧
    ((m.solves.length : Int) ≤ m.scrollOffset ∨ m.height ≤ 4 →
      window m.solves m.scrollOffset m.height = [] ∧
      m.viewAllSolvesView = some [Line.title, Line.noSolves]) := by
  have hview : m.viewAllSolvesView =
      some (Line.title ::
        (if (window m.solves m.scrollOffset m.height).isEmpty then [Line.noSolves]
         else listing m.scrollOffset (window m.solves m.scrollOffset m.height))) := by
    have hstop : (if m.scrollOffset + (m.height - 4) > (m.solves.length : Int)
        then (m.solves.length : Int) else m.scrollOffset + (m.height - 4)) =
        min (m.scrollOffset + m.height - 4) (m.solves.length : Int) := by
      split_ifs with h
      · rw [min_eq_right (by omega)]
      · rw [min_eq_left (by omega)]; omega
    have hw1 : wrapInt (m.height - 4) = m.height - 4 :=
      wrapInt_eq (by simp only [MinInt] at hlo ⊢; omega)
        (by simp only [MaxInt] at hhi ⊢; omega)
    have hw2 : wrapInt (m.scrollOffset + (m.height - 4)) = m.scrollOffset + (m.height - 4) :=
      wrapInt_eq (by simp only [MinInt] at hlo ⊢; omega) hhi
    simp only [model.viewAllSolvesView, hw1, hw2, hstop]
    rw [viewLoop_eq m.solves _ (min_le_right _ _) _ m.scrollOffset _ hoff rfl]
    simp only [window]
    cases hw : (List.take (min (m.scrollOffset + m.height - 4) (m.solves.length : Int) -
        m.scrollOffset).toNat (List.drop m.scrollOffset.toNat m.solves)) with
    | nil => simp [listing]
    | cons a l => simp [listing, List.enumFrom]
  have hempty : (m.solves.length : Int) ≤ m.scrollOffset ∨ m.height ≤ 4 →
      window m.solves m.scrollOffset m.height = [] := by
    intro h
    unfold window
    rcases h with h | h
    · rw [List.drop_eq_nil_of_le (by omega)]
      simp
    · have : (min (m.scrollOffset + m.height - 4) (m.solves.length : Int) -
          m.scrollOffset).toNat = 0 := by
        have := min_le_left (m.scrollOffset + m.height - 4) (m.solves.length : Int)
        omega
      rw [this]
      simp
  refine ⟨hview, ?_, ?_⟩
  · intro k
    unfold window
    rw [List.getElem?_take, List.getElem?_drop]
    have hiff : (k < (min (m.scrollOffset + m.height - 4) (m.solves.length : Int) -
          m.scrollOffset).toNat) ↔
        (m.scrollOffset + k < min (m.scrollOffset + m.height - 4) (m.solves.length : Int)) := by
      omega
    simp only [hiff]
  · intro h
    refine ⟨hempty h, ?_⟩
    rw [hview, hempty h]
    simp

/-- C8, amended, at a concrete input: three records, offset 1 and height 6 list the
records at indices 1 and 2, numbered 2 and 3. -/
theorem C8_view_window_witness :
    0 ≤ exViewing.scrollOffset ∧ MinInt ≤ exViewing.height - 4 ∧
    exViewing.scrollOffset + (exViewing.height - 4) ≤ MaxInt ∧
    exViewing.viewAllSolvesView = some [Line.title, Line.dnf 2, Line.plain 3 9] := by
  refine ⟨by decide, by decide, by decide, ?_⟩
  rw [(C8_view_window exViewing (by decide) (by decide) (by decide)).1]
  decide

/-- C10: under a clock that never goes backwards, in every reachable state in the
Inspecting phase the recorded inspection start is the clock reading at which the
inspection began, the cached inspection time is d = (clock reading at the last tick of the
inspection) - (clock reading at which it began), 0 before the first tick (capped at the
largest duration), and the penalty is the rule applied to d: "" when d is at most 15s,
"+2" when d is above 15s and at most 17s, "DNF" when d is above 17s.  A further call of
Update that leaves the model inspecting never gives a milder penalty, and keeps "DNF"
once it is reached. -/
theorem C10_penalty_follows_inspection {F : Type} [Float64 F] (clk began : Int)
    (last : Option Int) (m : model F) (hreach : MonoReachable clk began last m)
    (hi : m.inspection = true) :
    m.inspectionStart = began ∧
    0 ≤ inspectionTime last began ∧
    m.inspectionElapsed = min (inspectionTime last began) maxDuration ∧
    m.penalty = penaltyRule (inspectionTime last began) ∧
    m.penalty = penaltyRule m.inspectionElapsed ∧
    (inspectionTime last began ≤ 15 * Second → m.penalty = "") ∧
    (15 * Second < inspectionTime last began ∧ inspectionTime last began ≤ 17 * Second →
      m.penalty = "+2") ∧
    (17 * Second < inspectionTime last began → m.penalty = "DNF") ∧
    (∀ (now : Int) (msg : Msg), clk ≤ now → (m.Update now msg).1.inspection = true →
      penaltyRank m.penalty ≤ penaltyRank (m.Update now msg).1.penalty ∧
      (m.penalty = "DNF" → (m.Update now msg).1.penalty = "DNF")) := by
  obtain ⟨h1, h2, h3, h4, h5, h6⟩ := hreach.inv hi
  have hpen : m.penalty = penaltyRule (inspectionTime last began) := by
    rw [h6, h5, penaltyRule_min]
  refine ⟨h1, h3, h5, hpen, h6, ?_, ?_, ?_, ?_⟩
  · intro h
    rw [hpen]
    simp only [penaltyRule]
    rw [if_pos h]
  · rintro ⟨ha, hb⟩
    rw [hpen]
    simp only [penaltyRule]
    rw [if_neg (by omega), if_pos hb]
  · intro h
    rw [hpen]
    exact (penaltyRule_DNF _).mpr h
  · intro now msg hclk hi2
    obtain ⟨_, _, _, _, g5, g6⟩ := (MonoReachable.step now msg hreach hclk).inv hi2
    have hmono := inspectionTime_mono m clk now began last msg hi hclk h4
    have hg : (m.Update now msg).1.penalty =
        penaltyRule (inspectionTime (lastTickAfter m now msg last) (beganAfter m now began)) := by
      rw [g6, g5, penaltyRule_min]
    refine ⟨?_, ?_⟩
    · rw [hpen, hg]
      exact penaltyRule_mono hmono
    · intro hd
      rw [hpen] at hd
      rw [hg]
      have := (penaltyRule_DNF _).mp hd
      exact (penaltyRule_DNF _).mpr (by omega)

/-- C10 at a concrete input: an inspection begun at clock reading 3s with one tick at 19s
has recorded start 3s, cached time 16s and penalty "+2". -/
theorem C10_penalty_follows_inspection_witness :
    MonoReachable 19000000000 3000000000 (some 19000000000)
      (run (initialModel ([] : List (solveResult ℚ)))
        [(3000000000, advance), (19000000000, Msg.tickMsg)]) ∧
    (run (initialModel ([] : List (solveResult ℚ)))
        [(3000000000, advance), (19000000000, Msg.tickMsg)]).inspection = true ∧
    (run (initialModel ([] : List (solveResult ℚ)))
        [(3000000000, advance), (19000000000, Msg.tickMsg)]).inspectionStart = 3000000000 ∧
    (run (initialModel ([] : List (solveResult ℚ)))
        [(3000000000, advance), (19000000000, Msg.tickMsg)]).inspectionElapsed =
      min (inspectionTime (some 19000000000) 3000000000) maxDuration ∧
    inspectionTime (some 19000000000) 3000000000 = 16000000000 ∧
    (run (initialModel ([] : List (solveResult ℚ)))
        [(3000000000, advance), (19000000000, Msg.tickMsg)]).penalty = "+2" := by
  have hr : MonoReachable 19000000000 3000000000 (some 19000000000)
      (run (initialModel ([] : List (solveResult ℚ)))
        [(3000000000, advance), (19000000000, Msg.tickMsg)]) :=
    MonoReachable.step 19000000000 Msg.tickMsg
      (MonoReachable.step 3000000000 advance (MonoReachable.init [] 1000000000) (by decide))
      (by decide)
  have h := C10_penalty_follows_inspection _ _ _ _ hr (by decide)
  exact ⟨hr, by decide, h.1, h.2.2.1, by decide, h.2.2.2.2.2.2.1 (by decide)⟩

/-- C5, as stated, fails: advance at clock reading 0, ticks at 5s and 14.99s, advance at
16s and advance at 21s freeze the penalty of the last tick, "", and record 5.0 seconds
without penalty, not 7.0 seconds with "+2". -/
theorem C5_counterexample :
    (run (initialModel ([] : List (solveResult ℚ)))
      [(0, advance), (5000000000, Msg.tickMsg), (14990000000, Msg.tickMsg),
       (16000000000, advance)]).penalty = "" ∧
    (run (initialModel ([] : List (solveResult ℚ)))
      [(0, advance), (5000000000, Msg.tickMsg), (14990000000, Msg.tickMsg),
       (16000000000, advance)]).penalty ≠ "+2" ∧
    (run (initialModel ([] : List (solveResult ℚ)))
      [(0, advance), (5000000000, Msg.tickMsg), (14990000000, Msg.tickMsg),
       (16000000000, advance), (21000000000, advance)]).solves =
      [{ Time := 5, Penalty := "" }] ∧
    (run (initialModel ([] : List (solveResult ℚ)))
      [(0, advance), (5000000000, Msg.tickMsg), (14990000000, Msg.tickMsg),
       (16000000000, advance), (21000000000, advance)]).solves ≠
      [{ Time := 7, Penalty := "+2" }] := by
  have h1 : (run (initialModel ([] : List (solveResult ℚ)))
      [(0, advance), (5000000000, Msg.tickMsg), (14990000000, Msg.tickMsg),
       (16000000000, advance)]).penalty = "" := by decide
  have h2 : (run (initialModel ([] : List (solveResult ℚ)))
      [(0, advance), (5000000000, Msg.tickMsg), (14990000000, Msg.tickMsg),
       (16000000000, advance), (21000000000, advance)]).solves =
      [{ Time := 5, Penalty := "" }] := by
    have h3 : (run (initialModel ([] : List (solveResult ℚ)))
      [(0, advance), (5000000000, Msg.tickMsg), (14990000000, Msg.tickMsg),
       (16000000000, advance), (21000000000, advance)]).solves =
      [{ Time := Float64.seconds 5000000000, Penalty := "" }] := by rfl
    rw [h3]
    simp only [Float64.seconds]
    norm_num
  refine ⟨h1, ?_, h2, ?_⟩
  · rw [h1]; decide
  · rw [h2]; simp

/-- C5, amended: start Idle with the history view closed and history h; advance at t0, any
ticks, a last tick at a clock reading tlast with t0 + 15s < tlast ≤ t0 + 17s, and advance
at t0 + 16s leave the model Running with frozen penalty "+2"; any ticks and an advance 5s
after the second then leave it Idle with history {(5s).Seconds() + 2, "+2"} :: h. -/
theorem C5_scenario {F : Type} [Float64 F] (m0 : model F) (t0 tlast : Int)
    (ticks1 ticks2 : List Int)
    (hi : m0.inspection = false) (hr : m0.running = false)
    (hv : m0.viewingAllSolves = false)
    (hlast : t0 + 15 * Second < tlast ∧ tlast ≤ t0 + 17 * Second) :
    phase (run m0 (inspectionEvents t0 ticks1 tlast)) = some Phase.Running ∧
    (run m0 (inspectionEvents t0 ticks1 tlast)).penalty = "+2" ∧
    phase (run m0 (inspectionEvents t0 ticks1 tlast ++ solveEvents t0 ticks2)) =
      some Phase.Idle ∧
    (run m0 (inspectionEvents t0 ticks1 tlast ++ solveEvents t0 ticks2)).solves =
      { Time := Float64.add (Float64.seconds (5 * Second)) Float64.two, Penalty := "+2" }
        :: m0.solves := by
  have hS : Second = 1000000000 := rfl
  -- the first advance starts the inspection
  have e1 : run m0 (inspectionEvents t0 ticks1 tlast) =
      ((updateTick (run (m0.Update t0 advance).1 (tickEvents ticks1)) tlast).1.Update
        (t0 + 16 * Second) advance).1 := by
    have : run m0 (inspectionEvents t0 ticks1 tlast) =
        run (m0.Update t0 advance).1
          (tickEvents ticks1 ++ [(tlast, Msg.tickMsg), (t0 + 16 * Second, advance)]) := rfl
    rw [this, run_append]
    rfl
  obtain ⟨s1, s2, s3, s4, s5⟩ := advance_idle m0 t0 hi hr hv
  obtain ⟨a1, a2, a3, a4, a5⟩ := run_ticks_inspecting ticks1 (m0.Update t0 advance).1 s1
  rw [s2] at a2
  rw [s3] at a3
  rw [s4] at a4
  rw [s5] at a5
  generalize run (m0.Update t0 advance).1 (tickEvents ticks1) = m2 at *
  -- the last tick and the second advance
  have hsince : Since tlast t0 = tlast - t0 := by
    simp only [Since, Sub, maxDuration, minDuration, hS] at hlast ⊢
    split_ifs <;> omega
  obtain ⟨c1, c2, c3, c4, c5⟩ := tick_inspecting m2 tlast a1
  rw [a2, hsince] at c2
  rw [a3] at c3
  rw [a4] at c4
  generalize (updateTick m2 tlast).1 = m3 at *
  obtain ⟨d1, d2, d3, d4, d5, d6⟩ := advance_inspecting m3 (t0 + 16 * Second) c1 c4
  rw [c3] at d4
  rw [c4] at d5
  have hpen : (m3.Update (t0 + 16 * Second) advance).1.penalty = "+2" := by
    rw [d6, c2, if_pos ⟨by omega, by omega⟩]
  rw [← e1] at d1 d2 d3 d4 d5 hpen
  -- the ticks of the solve and the third advance
  have e3 : run m0 (inspectionEvents t0 ticks1 tlast ++ solveEvents t0 ticks2) =
      ((run (run m0 (inspectionEvents t0 ticks1 tlast)) (tickEvents ticks2)).Update
        (t0 + 16 * Second + 5 * Second) advance).1 := by
    rw [run_append, solveEvents, run_append]
    rfl
  obtain ⟨b1, b2, b3, b4, b5, b6⟩ :=
    run_ticks_running ticks2 (run m0 (inspectionEvents t0 ticks1 tlast)) d1 d2
  rw [d3] at b3
  rw [hpen] at b4
  rw [d4] at b5
  rw [d5] at b6
  have hfive : Since (t0 + 16 * Second + 5 * Second) (t0 + 16 * Second) = 5 * Second := by
    simp only [Since, Sub, maxDuration, minDuration, hS]
    split_ifs <;> omega
  obtain ⟨f1, f2, f3⟩ := advance_running _ (t0 + 16 * Second + 5 * Second) b1 b2 b6
  rw [b3, b4, b5, hfive] at f3
  refine ⟨?_, hpen, ?_, ?_⟩
  · simp [phase, d1, d2]
  · rw [e3]; simp [phase, f1, f2]
  · rw [e3, f3]
    simp [stopRecord]

/-- C5, amended, at a concrete input in exact arithmetic: from the initial model with an
empty history, ticks at 5s and 15.99s of the inspection and at 2s of the solve record
7.0 seconds with "+2". -/
theorem C5_scenario_witness :
    (initialModel ([] : List (solveResult ℚ))).inspection = false ∧
    (initialModel ([] : List (solveResult ℚ))).running = false ∧
    (initialModel ([] : List (solveResult ℚ))).viewingAllSolves = false ∧
    ((0 : Int) + 15 * Second < 15990000000 ∧ (15990000000 : Int) ≤ 0 + 17 * Second) ∧
    (run (initialModel ([] : List (solveResult ℚ)))
      (inspectionEvents 0 [5000000000] 15990000000)).penalty = "+2" ∧
    (run (initialModel ([] : List (solveResult ℚ)))
      (inspectionEvents 0 [5000000000] 15990000000 ++ solveEvents 0 [18000000000])).solves =
      [{ Time := 7, Penalty := "+2" }] := by
  have h := C5_scenario (initialModel ([] : List (solveResult ℚ))) 0 15990000000
    [5000000000] [18000000000] rfl rfl rfl (by decide)
  refine ⟨rfl, rfl, rfl, by decide, h.2.1, ?_⟩
  rw [h.2.2.2]
  simp only [Float64.seconds, Float64.add, Float64.two, Second, initialModel]
  norm_num

end SolveTimer
